import Mathlib

/-!
Verification development for the test-server record/replay proxy.

The Go sources are shallowly embedded: strings and byte slices are modelled
as lists of characters, maps as association lists in their canonical
(iteration/sorted) order, and the SHA-256 function is kept abstract as a
function parameter, so that statements about hash sensitivity are made at
the level of the byte stream fed into the hash (which is where the code can
or cannot introduce collisions).

Sections:
  1. basic line splitting/joining (strings.Split / strings.Join on newline)
  2. decimal formatting (fmt %d) and the fmt.Sscan integer scanner
  3. textproto canonical MIME header keys and http.Header.Add
  4. the line-oriented text store (RecordedRequest Serialize/Deserialize)
  5. the JSON marshalling of an http.Header and the text-format ComputeSum
  6. the redaction engine (internal/redact)
  7. the structured store (GetRecordingFileName) and the replay/record
     per-request state machines
  8. the websocket transcript writer/loader and the replay walker
-/

/-- Byte/character strings are modelled as lists of characters. -/
abbrev Str := List Char

/-- Model of the Go expression strings.Split(s, "\n"). -/
def splitNl : Str → List Str
  | [] => [[]]
  | c :: cs =>
    if c = '\n' then [] :: splitNl cs
    else
      match splitNl cs with
      | [] => [[c]]
      | l :: ls => (c :: l) :: ls

/-- Model of the Go expression strings.Join(lines, "\n"). -/
def intercalateNl : List Str → Str
  | [] => []
  | [l] => l
  | l :: ls => l ++ '\n' :: intercalateNl ls

/-! ## 2. Decimal formatting and the fmt integer scanner -/

/-- The character for a decimal digit value below ten. -/
def decChar (n : Nat) : Char := Char.ofNat (48 + n)

/-- Decimal digits of a natural number, most significant first
(the Go formatting verb %d for non-negative values). -/
def natToDigits (n : Nat) : Str :=
  if _h : n < 10 then [decChar n]
  else natToDigits (n / 10) ++ [decChar (n % 10)]
decreasing_by exact Nat.div_lt_self (by omega) (by omega)

/-- Model of the Go expression fmt.Sprintf("%d", p) for an int64. -/
def intToStr (p : Int) : Str :=
  if p < 0 then '-' :: natToDigits p.natAbs else natToDigits p.toNat

/-- Decimal digit test, matching the byte range 0x30-0x39. -/
def isDecD (c : Char) : Bool := decide (48 ≤ c.toNat) && decide (c.toNat ≤ 57)

def isBinD (c : Char) : Bool := c = '0' || c = '1'

def isOctD (c : Char) : Bool := decide (48 ≤ c.toNat) && decide (c.toNat ≤ 55)

def isHexD (c : Char) : Bool :=
  isDecD c || (decide (97 ≤ c.toNat) && decide (c.toNat ≤ 102)) ||
  (decide (65 ≤ c.toNat) && decide (c.toNat ≤ 70))

/-- Numeric value of a digit character in any base up to sixteen. -/
def hexVal (c : Char) : Nat :=
  if isDecD c then c.toNat - 48
  else if decide (97 ≤ c.toNat) && decide (c.toNat ≤ 102) then c.toNat - 87
  else c.toNat - 55

/-- Value of a digit run read in the given base, most significant first. -/
def valIn (base : Nat) (ds : Str) : Nat :=
  ds.foldl (fun a c => base * a + hexVal c) 0

/-- The white-space table of the fmt scanner (fmt.Sscan skips these
before scanning an operand). -/
def goIsSpace (c : Char) : Bool :=
  (decide (0x9 ≤ c.toNat) && decide (c.toNat ≤ 0xd)) || c.toNat = 0x20 ||
  c.toNat = 0x85 || c.toNat = 0xa0 || c.toNat = 0x1680 ||
  (decide (0x2000 ≤ c.toNat) && decide (c.toNat ≤ 0x200a)) ||
  c.toNat = 0x2028 || c.toNat = 0x2029 || c.toNat = 0x202f ||
  c.toNat = 0x205f || c.toNat = 0x3000

/-- The underscore-placement rule of strconv.ParseInt with base 0, checked
over one digit run: an underscore must sit between two digits (the flag
records whether a digit, or a base prefix, immediately precedes the run). -/
def usOK (prev : Bool) : Str → Bool
  | [] => true
  | c :: rest =>
    if c = '_' then
      prev && (match rest with | [] => false | d :: _ => d ≠ '_') && usOK false rest
    else usOK true rest

/-- Remove digit-group underscores before computing the value. -/
def stripUnd (ds : Str) : Str := ds.filter (fun c => c ≠ '_')

/-- Final token validation and int64 range check shared by the scanner
branches: mirrors strconv.ParseInt(tok, 0, 64) applied to the token
collected by the fmt scanner. -/
def finishScan (neg : Bool) (base : Nat) (ds : Str) (needDigit : Bool) (afterDigit : Bool) :
    Option Int :=
  if needDigit && decide (stripUnd ds = []) then none
  else if usOK afterDigit ds then
    let v : Nat := valIn base (stripUnd ds)
    if neg then (if v ≤ 2 ^ 63 then some (-(v : Int)) else none)
    else (if v ≤ 2 ^ 63 - 1 then some (v : Int) else none)
  else none

/-- Digit scanning once a leading zero has been consumed: the base-0 prefix
rules of the %v integer verb (0b/0o/0x, bare leading 0 meaning octal). -/
def scanAfterZero (neg : Bool) : Str → Option Int
  | [] => some 0
  | c :: r2 =>
    if c = 'b' || c = 'B' then
      finishScan neg 2 (r2.takeWhile (fun d => isBinD d || d = '_')) true true
    else if c = 'o' || c = 'O' then
      finishScan neg 8 (r2.takeWhile (fun d => isOctD d || d = '_')) true true
    else if c = 'x' || c = 'X' then
      finishScan neg 16 (r2.takeWhile (fun d => isHexD d || d = '_')) true true
    else
      finishScan neg 8 ((c :: r2).takeWhile (fun d => isOctD d || d = '_')) false true

/-- Digit scanning after the optional sign has been consumed. -/
def scanBody (neg : Bool) : Str → Option Int
  | [] => none
  | c1 :: r1 =>
    if c1 = '0' then scanAfterZero neg r1
    else
      let ds := (c1 :: r1).takeWhile (fun d => isDecD d || d = '_')
      if ds = [] then none else finishScan neg 10 ds true false

/-- Sign handling after white space has been skipped. -/
def scanStart : Str → Option Int
  | [] => none
  | c0 :: r0 => scanBody (c0 = '-') (if c0 = '-' || c0 = '+' then r0 else c0 :: r0)

/-- Model of fmt.Sscan(s, &port) for a single int operand (the %v integer
scanner): skip white space, accept an optional sign, then scan digits with
the base-0 prefix rules; trailing characters outside the digit set are left
unconsumed, and an empty digit token, a misplaced underscore or an
out-of-range value is an error. -/
def goScanInt (s0 : Str) : Option Int := scanStart (s0.dropWhile goIsSpace)

/-! ## 3. Canonical MIME header keys and http.Header.Add -/

/-- The token-byte table of net/textproto (validHeaderFieldByte): letters,
digits and the bytes of the punctuation set allowed in header field names. -/
def validKeyByte (c : Char) : Bool :=
  let n := c.toNat
  (decide (48 ≤ n) && decide (n ≤ 57)) || (decide (65 ≤ n) && decide (n ≤ 90)) ||
  (decide (97 ≤ n) && decide (n ≤ 122)) || n = 33 ||
  (decide (35 ≤ n) && decide (n ≤ 39)) || n = 42 || n = 43 || n = 45 || n = 46 ||
  n = 94 || n = 95 || n = 96 || n = 124 || n = 126

/-- ASCII upper-casing of one byte (subtract 0x20). -/
def upChar (c : Char) : Char := Char.ofNat (c.toNat - 32)

/-- ASCII lower-casing of one byte (add 0x20). -/
def downChar (c : Char) : Char := Char.ofNat (c.toNat + 32)

def isLowerB (c : Char) : Bool := decide (97 ≤ c.toNat) && decide (c.toNat ≤ 122)

def isUpperB (c : Char) : Bool := decide (65 ≤ c.toNat) && decide (c.toNat ≤ 90)

/-- The canonicalising loop of textproto.CanonicalMIMEHeaderKey: upper-case
the first byte and every byte after a dash, lower-case the rest. -/
def canonLoop (upper : Bool) : Str → Str
  | [] => []
  | c :: rest =>
    let c2 := if upper && isLowerB c then upChar c
              else if !upper && isUpperB c then downChar c
              else c
    c2 :: canonLoop (c2 = '-') rest

/-- Model of textproto.CanonicalMIMEHeaderKey: a key containing a byte that
is not a valid header-field byte is returned unchanged, otherwise it is
canonicalised. -/
def canonicalKey (k : Str) : Str :=
  if k.all validKeyByte then canonLoop true k else k

/-- A textual http.Header is an association list from a key to its ordered
value list, in map-iteration order. -/
abbrev HdrT := List (Str × List Str)

/-- Model of http.Header.Add with an already-canonical key: append the value
to the existing entry of the key, or append a fresh entry. -/
def hdrAdd : HdrT → Str → Str → HdrT
  | [], k, v => [(k, [v])]
  | (k0, vs) :: rest, k, v =>
    if k0 = k then (k0, vs ++ [v]) :: rest else (k0, vs) :: hdrAdd rest k v

/-- One serialized header line: "{key}: {value}". -/
def hdrLine (k v : Str) : Str := k ++ ':' :: ' ' :: v

/-- The header lines emitted by Serialize, one line per value. -/
def serHdrLines : HdrT → List Str
  | [] => []
  | (k, vs) :: rest => vs.map (hdrLine k) ++ serHdrLines rest

/-- Does the string start with a space byte. -/
def spHead : Str → Bool
  | ' ' :: _ => true
  | _ => false

/-- Model of strings.SplitN(line, ": ", 2): split at the first occurrence
of a colon followed by a space; none when there is no such occurrence. -/
def splitKV : Str → Option (Str × Str)
  | [] => none
  | c :: rest =>
    if c = ':' && spHead rest then some ([], rest.drop 1)
    else (splitKV rest).map (fun p => (c :: p.1, p.2))

/-- Processing of one line of the header block of Deserialize: lines
without a key-value separator are skipped, parsed keys are canonicalised
by http.Header.Add. -/
def addLine (acc : HdrT) (l : Str) : HdrT :=
  match splitKV l with
  | none => acc
  | some (k, v) => hdrAdd acc (canonicalKey k) v

/-! ## 4. The line-oriented text store (src/unnamed/part_002, package store) -/

/-- The head-of-chain sentinel HeadSHA of the text/structured store. -/
def headSHAhex : Str :=
  ("b4d6e60a9b97e7b98c63df9308728c5c88c0b40c398046772c63447b94608b4d").toList

/-- RecordedRequest of the line-oriented text store generation. -/
structure RecordedRequestT where
  Request : Str
  Header : HdrT
  Body : Str
  PreviousRequest : Str
  ServerAddress : Str
  Port : Int
  Protocol : Str
deriving DecidableEq

def saPre : Str := ("Server Address: ").toList

def portPre : Str := ("Port: ").toList

def protoPre : Str := ("Protocol: ").toList

/-- The separator line of eighty asterisks. -/
def starsLine : Str := List.replicate 80 '*'

/-- Each line followed by one newline, in order (the WriteString sequence
of the Serialize builder). -/
def linesNl : List Str → Str
  | [] => []
  | l :: ls => l ++ '\n' :: linesNl ls

/-- The fixed leading lines of the text serialization: previous-hash,
server address, port, protocol, the asterisk separator and the request
line. -/
def serFrontLines (r : RecordedRequestT) : List Str :=
  [r.PreviousRequest, saPre ++ r.ServerAddress, portPre ++ intToStr r.Port,
   protoPre ++ r.Protocol, starsLine, r.Request]

/-- Model of (RecordedRequest).Serialize of the text store: the front
lines, one line per header value, two empty lines, then the body bytes
verbatim. -/
def serializeT (r : RecordedRequestT) : Str :=
  linesNl (serFrontLines r ++ serHdrLines r.Header) ++ '\n' :: '\n' :: r.Body

/-- Result of the header/body scan of Deserialize.  crash models the Go
out-of-range panic of reading lines[i+1] when the final line is empty and
no blank-blank separator was found before it. -/
inductive ScanRes where
  | found (hdrs : HdrT) (bodyLines : List Str)
  | nofound (hdrs : HdrT)
  | crash
deriving DecidableEq

/-- The forward scan of Deserialize from the header start: stop at two
consecutive empty lines (the body follows), otherwise parse a header line.
Reading lines[i+1] when i is the last index is the modelled crash. -/
def scanHdr (acc : HdrT) : List Str → ScanRes
  | [] => .nofound acc
  | l :: rest =>
    if l = [] then
      match rest with
      | [] => .crash
      | r :: rr => if r = [] then .found acc rr else scanHdr acc rest
    else scanHdr (addLine acc l) rest

/-- Model of strings.TrimPrefix. -/
def dropPre (pre s : Str) : Str := if pre.isPrefixOf s then s.drop pre.length else s

/-- Result of Deserialize: a request, an error, or the modelled panic. -/
inductive DeserializeRes where
  | ok (r : RecordedRequestT)
  | err
  | crash
deriving DecidableEq

/-- Model of store.Deserialize of the text store: split on newlines,
require at least six lines, read the positional prefix block, parse the
port with fmt.Sscan when non-empty, then scan forward for the double blank
line locating the body. -/
def deserializeT (data : Str) : DeserializeRes :=
  let lines := splitNl data
  if lines.length < 6 then .err
  else
    let previousRequest := lines.getD 0 []
    let serverAddress := dropPre saPre (lines.getD 1 [])
    let portString := dropPre portPre (lines.getD 2 [])
    let protocol := dropPre protoPre (lines.getD 3 [])
    match (if portString = [] then some 0 else goScanInt portString : Option Int) with
    | none => .err
    | some port =>
      let request := lines.getD 5 []
      match scanHdr [] (lines.drop 6) with
      | .crash => .crash
      | .nofound hdrs =>
        .ok ⟨request, hdrs, [], previousRequest, serverAddress, port, protocol⟩
      | .found hdrs bodyLines =>
        .ok ⟨request, hdrs, intercalateNl bodyLines, previousRequest, serverAddress,
             port, protocol⟩

/-- The values of the text store representable in its format: no embedded
newline in any line-positioned field, an int64 port, a header map in
canonical form (iteration order as stored, distinct canonical keys without
colons, at least one value per key, newline-free values). -/
def ValidT (r : RecordedRequestT) : Prop :=
  '\n' ∉ r.PreviousRequest ∧ '\n' ∉ r.ServerAddress ∧ '\n' ∉ r.Protocol ∧
  '\n' ∉ r.Request ∧ -(2 ^ 63) ≤ r.Port ∧ r.Port ≤ 2 ^ 63 - 1 ∧
  r.Header.Pairwise (fun a b => a.1 ≠ b.1) ∧
  ∀ e ∈ r.Header, '\n' ∉ e.1 ∧ (∀ c ∈ e.1, c ≠ ':') ∧ canonicalKey e.1 = e.1 ∧
    e.2 ≠ [] ∧ ∀ v ∈ e.2, '\n' ∉ v

instance (r : RecordedRequestT) : Decidable (ValidT r) := by
  unfold ValidT
  infer_instance

/-- A concrete representable request used to witness the round-trip. -/
def sampleReqT : RecordedRequestT where
  Request := ("GET / HTTP/1.1").toList
  Header := [(("Accept").toList, [("application/xml").toList]),
             (("Content-Type").toList, [("application/json").toList])]
  Body := ("hello\nworld").toList
  PreviousRequest := headSHAhex
  ServerAddress := ("example.com").toList
  Port := 8080
  Protocol := ("http").toList

/-! ## 5. json.Marshal of an http.Header and the text-format ComputeSum -/

/-- Lower-case hexadecimal digit character. -/
def hexDigitChar (n : Nat) : Char := Char.ofNat (if n < 10 then 48 + n else 87 + n)

/-- The opening brace byte of a JSON object. -/
def lbrace : Char := Char.ofNat 123

/-- The closing brace byte of a JSON object. -/
def rbrace : Char := Char.ofNat 125

/-- The escaping of one character inside a JSON string, as performed by
encoding/json with its default HTML escaping (the json.Marshal path):
quote, backslash, newline, carriage return and tab get two-byte escapes,
other control bytes and the HTML-sensitive characters and the two Unicode
line separators get six-byte \u escapes, everything else is literal. -/
def escChar (c : Char) : Str :=
  if c = '"' then ['\\', '"']
  else if c = '\\' then ['\\', '\\']
  else if c = '\n' then ['\\', 'n']
  else if c = '\r' then ['\\', 'r']
  else if c = '\t' then ['\\', 't']
  else if c.toNat < 0x20 then
    ['\\', 'u', '0', '0', hexDigitChar (c.toNat / 16), hexDigitChar (c.toNat % 16)]
  else if c = '<' then ['\\', 'u', '0', '0', '3', 'c']
  else if c = '>' then ['\\', 'u', '0', '0', '3', 'e']
  else if c = '&' then ['\\', 'u', '0', '0', '2', '6']
  else if c.toNat = 0x2028 then ['\\', 'u', '2', '0', '2', '8']
  else if c.toNat = 0x2029 then ['\\', 'u', '2', '0', '2', '9']
  else [c]

def escStr : Str → Str
  | [] => []
  | c :: cs => escChar c ++ escStr cs

/-- A JSON string literal with its surrounding quotes. -/
def jsonStr (s : Str) : Str := '"' :: escStr s ++ ['"']

/-- The comma-separated inside of the JSON array of the values of one
header key. -/
def jsonVals : List Str → Str
  | [] => []
  | [v] => jsonStr v
  | v :: vs => jsonStr v ++ ',' :: jsonVals vs

/-- One object member "key":["v1","v2"] of the marshalled header. -/
def jsonField (k : Str) (vs : List Str) : Str :=
  jsonStr k ++ ':' :: '[' :: jsonVals vs ++ [']']

/-- The comma-separated members of the marshalled header object. -/
def jsonFields : HdrT → Str
  | [] => []
  | [(k, vs)] => jsonField k vs
  | (k, vs) :: rest => jsonField k vs ++ ',' :: jsonFields rest

/-- Model of json.Marshal(r.Header): the header object in map-key order
(the canonical association-list order stands for the sorted key order in
which encoding/json emits a map). -/
def jsonHeader (h : HdrT) : Str := lbrace :: jsonFields h ++ [rbrace]

/-- The byte stream hashed by ComputeSum of the text store:
bytes.Join([][]byte(headerBytes, r.Body), []byte()) - the marshalled
header immediately concatenated with the body bytes. -/
def hashInputT (r : RecordedRequestT) : Str := jsonHeader r.Header ++ r.Body

/-- ComputeSum of the text store with the SHA-256-and-hex-encode step kept
abstract: the sum is a pure function of the hash input stream. -/
def computeSumT (sha : Str → Str) (r : RecordedRequestT) : Str := sha (hashInputT r)

/-- Go byte-lexicographic string order (the sort order of map keys used by
encoding/json; UTF-8 byte order agrees with code-point order). -/
def ltStr : Str → Str → Bool
  | [], [] => false
  | [], _ :: _ => true
  | _ :: _, [] => false
  | a :: as, b :: bs =>
    if a.toNat < b.toNat then true
    else if b.toNat < a.toNat then false
    else ltStr as bs

/-- A header association list in the canonical (strictly sorted) key order
in which encoding/json marshals a Go map. -/
def HdrSorted (h : HdrT) : Prop := h.Pairwise (fun a b => ltStr a.1 b.1 = true)

instance (h : HdrT) : Decidable (HdrSorted h) := by
  unfold HdrSorted
  infer_instance

/-- The value of a two-character short escape. -/
def shortCode (d : Char) : Option Char :=
  if d = '"' then some '"'
  else if d = '\\' then some '\\'
  else if d = 'n' then some '\n'
  else if d = 'r' then some '\r'
  else if d = 't' then some '\t'
  else none

/-- Code point of a four-digit hexadecimal escape payload. -/
def uDecode (a b e f : Char) : Nat :=
  ((hexVal a * 16 + hexVal b) * 16 + hexVal e) * 16 + hexVal f

/-- Decoder of one escaped character at the head of a JSON string body;
none at the closing quote.  Inverse of escChar, used to prove that the
marshalled header is prefix-unambiguous. -/
def unescConsume : Str → Option (Char × Str)
  | [] => none
  | c :: rest =>
    if c = '"' then none
    else if c = '\\' then
      match rest with
      | [] => none
      | d :: rest2 =>
        if d = 'u' then
          match rest2 with
          | a :: b :: e :: f :: rest3 => some (Char.ofNat (uDecode a b e f), rest3)
          | _ => none
        else
          match shortCode d with
          | some c0 => some (c0, rest2)
          | none => none
    else some (c, rest)

/-- Two requests that differ only in the previous-hash field. -/
def reqPrevA : RecordedRequestT :=
  { sampleReqT with PreviousRequest := headSHAhex }

def reqPrevB : RecordedRequestT :=
  { sampleReqT with PreviousRequest :=
      ("0000000000000000000000000000000000000000000000000000000000000000").toList }

/-! ## 6. The redaction engine (internal/redact) -/

/-- The replacement string of the redactor. -/
def REDACTED : Str := ("REDACTED").toList

/-- Model of redact.NewRedact: empty secret strings are filtered out; with
no remaining secrets the compiled regex is nil (modelled none) and every
operation passes its input through. -/
def mkRedact (secrets : List Str) : Option (List Str) :=
  let filtered := secrets.filter (fun s => s ≠ [])
  if filtered = [] then none else some filtered

/-- Does the pattern occur as a contiguous substring (strings.Contains /
a regex literal finding a match). -/
def hasOcc (p : Str) : Str → Bool
  | [] => p = []
  | c :: rest => p.isPrefixOf (c :: rest) || hasOcc p rest

/-- The first alternative of the compiled alternation that matches at the
current position (Go regexp alternation is leftmost-first: the earliest
listed literal wins at a given position). -/
def firstHit (pats : List Str) (s : Str) : Option Str :=
  pats.find? (fun p => p ≠ [] && p.isPrefixOf s)

/-- The scan of regexp.ReplaceAll for the alternation of literal secrets:
scan left to right, replace each leftmost-first match with REDACTED and
resume after the matched bytes (the skip counter counts the still-matched
bytes being consumed); replacement text is not rescanned. -/
def replSkip (pats : List Str) : Nat → Str → Str
  | _, [] => []
  | 0, c :: rest =>
    match firstHit pats (c :: rest) with
    | some p => REDACTED ++ replSkip pats (p.length - 1) rest
    | none => c :: replSkip pats 0 rest
  | n + 1, _ :: rest => replSkip pats n rest

/-- Model of regexp.ReplaceAll of the compiled secret alternation. -/
def replAll (pats : List Str) (s : Str) : Str := replSkip pats 0 s

/-- Model of (Redact).String. -/
def redactString (ro : Option (List Str)) (s : Str) : Str :=
  match ro with
  | none => s
  | some pats => replAll pats s

/-- Model of (Redact).Bytes; none models a nil byte slice, which is
passed through as nil even when secrets are configured. -/
def redactBytes (ro : Option (List Str)) (b : Option Str) : Option Str :=
  match ro with
  | none => b
  | some pats =>
    match b with
    | none => none
    | some bs => some (replAll pats bs)

/-- Model of (Redact).Headers: every value of every key is redacted. -/
def redactHeaders (ro : Option (List Str)) (h : HdrT) : HdrT :=
  match ro with
  | none => h
  | some pats => h.map (fun kv => (kv.1, kv.2.map (replAll pats)))

/-! ## 7. The structured store and the replay/record state machines -/

/-- RecordedRequest of the structured (JSON) store generation
(src/internal/store/store.go): headers flattened to one string per key,
body decoded into JSON segments (kept as an abstract type parameter -
none of the verified control flow inspects them). -/
structure RecordedRequestJ (β : Type) where
  Method : Str
  URL : Str
  Request : Str
  Headers : List (Str × Str)
  BodySegments : List β
  PreviousRequest : Str
  ServerAddress : Str
  Port : Int
  Protocol : Str
deriving DecidableEq

/-- Go map read m[k]: the zero value when the key is missing. -/
def headersGet (hs : List (Str × Str)) (k : Str) : Str :=
  match hs.find? (fun e => e.1 = k) with
  | some e => e.2
  | none => []

def testNameKey : Str := ("Test-Name").toList

def dotDotSlash : Str := ("../").toList

/-- Model of strings.ReplaceAll(testName, " ", "_"): the pattern and the
replacement are single bytes, so every space byte is replaced. -/
def replaceSpaces (s : Str) : Str := s.map (fun c => if c = ' ' then '_' else c)

/-- Model of (RecordedRequest).GetRecordingFileName of the structured
store, with ComputeSum (the hex SHA-256 of the serialized request) kept
abstract as the function argument: reject a test name containing "../",
prefer the space-sanitized test name, fall back to the content hash. -/
def getRecordingFileName {β : Type} (sum : RecordedRequestJ β → Str)
    (r : RecordedRequestJ β) : Except Str Str :=
  let testName := headersGet r.Headers testNameKey
  if hasOcc dotDotSlash testName then .error testName
  else if testName ≠ [] then .ok (replaceSpaces testName)
  else .ok (sum r)

/-- The chain state of one replay endpoint: the chain head and the set of
recording file names already replayed in this run. -/
structure ReplayState where
  prevRequestSHA : Str
  seenFiles : List Str
deriving DecidableEq

/-- The observable outcome of one replay handleRequest invocation. -/
inductive ROut where
  | health
  | errBuild
  | errName (msg : Str)
  | websocket (fileName : Str)
  | errLoad (fileName shaSum : Str)
  | panicWrite (fileName shaSum : Str)
  | ok (fileName shaSum : Str)
deriving DecidableEq

/-- One inbound request of the replay engine with the live-request parts
abstracted: core carries the redacted request fields built by
createRedactedRequest (its PreviousRequest field is overwritten from the
chain head by the handler), health models req.URL.Path == config.Health,
buildErr a createRedactedRequest failure, wsUpgrade the
req.Header.Get("Upgrade") == "websocket" test, and writeErr a
writeResponse failure (which panics in the handler). -/
structure ReplayInput (β : Type) where
  core : RecordedRequestJ β
  health : Bool
  buildErr : Bool
  wsUpgrade : Bool
  writeErr : Bool

def setPrev {β : Type} (r : RecordedRequestJ β) (p : Str) : RecordedRequestJ β :=
  { r with PreviousRequest := p }

/-- Model of (ReplayHTTPServer).handleRequest of the latest replay server:
health short-circuit; build the redacted request with the current chain
head; resolve the file name; on a name never seen, reset the request
previous-hash to HeadSHA before hashing; websocket requests replay the
transcript without touching the chain state; otherwise compute the sum,
look the response up (the lookup oracle models the .http.log scan), and on
success record the file as seen and advance the chain head to the computed
sum only when the file name differs from it. -/
def replayStep {β : Type} (sum : RecordedRequestJ β → Str)
    (lookup : Str → Str → Bool) (inp : ReplayInput β) (st : ReplayState) :
    ReplayState × ROut :=
  if inp.health then (st, .health)
  else if inp.buildErr then (st, .errBuild)
  else
    let redactedReq := setPrev inp.core st.prevRequestSHA
    match getRecordingFileName sum redactedReq with
    | .error e => (st, .errName e)
    | .ok fileName =>
      let redactedReq2 :=
        if fileName ∈ st.seenFiles then redactedReq else setPrev redactedReq headSHAhex
      if inp.wsUpgrade then (st, .websocket fileName)
      else
        let shaSum := sum redactedReq2
        if lookup fileName shaSum then
          if inp.writeErr then (st, .panicWrite fileName shaSum)
          else ({ prevRequestSHA := if fileName ≠ shaSum then shaSum else st.prevRequestSHA,
                  seenFiles := fileName :: st.seenFiles }, .ok fileName shaSum)
        else (st, .errLoad fileName shaSum)

/-- A fixed stand-in content-hash function for witnesses. -/
def sumU : RecordedRequestJ Unit → Str := fun _ => ("deadbeef").toList

/-- A structured-store request with the given flattened headers. -/
def mkReqJ (hs : List (Str × Str)) : RecordedRequestJ Unit :=
  ⟨("GET").toList, ("/").toList, ("GET / HTTP/1.1").toList, hs, [],
   headSHAhex, ("example.com").toList, 443, ("https").toList⟩

/-- http.Header.Del: remove the canonicalized key from the header map. -/
def hdrDel (h : HdrT) (k : Str) : HdrT := h.filter (fun kv => kv.1 ≠ canonicalKey k)

/-- RedactHeaders of the text-store RecordedRequest: Del every configured key. -/
def hdrDelAll (h : HdrT) (ks : List Str) : HdrT := ks.foldl hdrDel h

def setPrevT (r : RecordedRequestT) (p : Str) : RecordedRequestT :=
  { r with PreviousRequest := p }

/-- The parts of one recording-proxy request with the live request
abstracted: core carries the fields NewRecordedRequest extracts, buildErr
models a NewRecordedRequest failure, writeErr an os.WriteFile failure,
wsUpgrade the Upgrade: websocket test, proxyErr a proxyRequest failure and
recordRespErr a recordResponse failure. -/
structure RecordInput where
  core : RecordedRequestT
  buildErr : Bool
  writeErr : Bool
  wsUpgrade : Bool
  proxyErr : Bool
  recordRespErr : Bool

/-- Model of (RecordingHTTPSProxy).recordRequest: build the request with
the chain head as its previous-hash, delete the configured header keys,
redact header values, the request line and the body, compute the content
hash and write the file, returning the hash. -/
def recordRequestT (sha : Str → Str) (redactKeys : List Str)
    (ro : Option (List Str)) (prev : Str) (inp : RecordInput) : Except Unit Str :=
  if inp.buildErr then .error ()
  else
    let r0 := setPrevT inp.core prev
    let r1 := { r0 with Header := redactHeaders ro (hdrDelAll r0.Header redactKeys) }
    let r2 := { r1 with Request := redactString ro r1.Request }
    let r3 := { r2 with Body := match redactBytes ro (some r2.Body) with
                                | some b => b
                                | none => r2.Body }
    let reqHash := computeSumT sha r3
    if inp.writeErr then .error () else .ok reqHash

/-- The observable outcome of one recording handleRequest invocation. -/
inductive RecOut where
  | errRecord
  | websocket (reqHash : Str)
  | errProxy (reqHash : Str)
  | errRecordResp (reqHash : Str)
  | okRec (reqHash : Str)
deriving DecidableEq

/-- Model of (RecordingHTTPSProxy).handleRequest: record the request, on a
websocket upgrade hand off to the websocket proxy, otherwise proxy the
request upstream and record the response.  The first component is the
chain head after the invocation: the handler contains no assignment to
prevRequestSHA, so it is returned unchanged on every path. -/
def recordStep (sha : Str → Str) (redactKeys : List Str)
    (ro : Option (List Str)) (inp : RecordInput) (prev : Str) : Str × RecOut :=
  match recordRequestT sha redactKeys ro prev inp with
  | .error _ => (prev, .errRecord)
  | .ok reqHash =>
    if inp.wsUpgrade then (prev, .websocket reqHash)
    else if inp.proxyErr then (prev, .errProxy reqHash)
    else if inp.recordRespErr then (prev, .errRecordResp reqHash)
    else (prev, .okRec reqHash)

/-- The outcome of loadWebsocketChunks: the chunk list, an error, or a Go
runtime panic (a slice expression with inverted bounds). -/
inductive WSLoad where
  | okC (chunks : List Str)
  | err
  | crash
deriving DecidableEq

/-- The loop body of (ReplayHTTPServer).loadWebsocketChunks, cursor
arithmetic rephrased on the suffix after the direction byte: a record is a
direction byte, a run of decimal digits (extractNumber, with the int64
range check of strconv.Atoi), one skipped separator byte, then num bytes
of which the last (taken as the trailing newline) is dropped from the
stored chunk.  The fuel argument bounds the number of records; one byte is
consumed per record, so the input length suffices. -/
def loadWSAux : Nat → Str → List Str → WSLoad
  | _, [], acc => .okC acc.reverse
  | 0, _ :: _, _ => .err
  | f + 1, c :: rest, acc =>
    if c = '>' || c = '<' then
      if (rest.takeWhile isDecD) = [] then .err
      else if valIn 10 (rest.takeWhile isDecD) ≥ 2 ^ 63 then .err
      else if rest.length <
          (rest.takeWhile isDecD).length + 1 + valIn 10 (rest.takeWhile isDecD) then .err
      else if valIn 10 (rest.takeWhile isDecD) = 0 then .crash
      else loadWSAux f
        (rest.drop ((rest.takeWhile isDecD).length + 1 + valIn 10 (rest.takeWhile isDecD)))
        ((c :: (rest.drop ((rest.takeWhile isDecD).length + 1)).take
            (valIn 10 (rest.takeWhile isDecD) - 1)) :: acc)
    else .err

/-- Model of (ReplayHTTPServer).loadWebsocketChunks on the file bytes. -/
def loadWS (s : Str) : WSLoad := loadWSAux s.length s []

/-- The bytes pumpWebsocket of the recording proxy appends to the
websocket transcript for one frame: fmt.Sprintf("%s%d", prepend, cap(buf))
followed by the payload bytes, with no separator and no trailing
newline. -/
def pumpRecord (dir : Char) (capv : Nat) (payload : Str) : Str :=
  dir :: (natToDigits capv ++ payload)

/-- Observable events of a websocket replay on the live connection. -/
inductive WSEv where
  | readF (payload : Str)
  | writeF (payload : Str)
  | writeClose (msg : Str)
deriving DecidableEq

/-- Model of replayWebsocket: walk the chunks in order; a chunk tagged '>'
blocks reading one frame from the live client (an exhausted client models
a read error: the loop returns) and compares the raw frame against the
recorded payload, aborting with a close frame carrying "input chunk
mismatch" when they differ; a chunk tagged '<' writes the recorded payload
to the client as a binary frame; anything else ends the loop. -/
def replayWS : List Str → List Str → List WSEv
  | [], _ => []
  | chunk :: chunks, inbound =>
    match chunk with
    | '>' :: rec =>
      match inbound with
      | [] => []
      | q :: inbound2 =>
        if q = rec then WSEv.readF q :: replayWS chunks inbound2
        else [WSEv.readF q, WSEv.writeClose (("input chunk mismatch").toList)]
    | '<' :: rec => WSEv.writeF rec :: replayWS chunks inbound
    | _ => []

/-- The specified behaviour, for comparison with replayWS: identical
except that the inbound frame is redacted before the comparison ("block
reading one frame from the live client, redact it, and compare it to the
recorded payload"). -/
def replayWSSpecRedacting (ro : Option (List Str)) : List Str → List Str → List WSEv
  | [], _ => []
  | chunk :: chunks, inbound =>
    match chunk with
    | '>' :: rec =>
      match inbound with
      | [] => []
      | q :: inbound2 =>
        if redactString ro q = rec then
          WSEv.readF q :: replayWSSpecRedacting ro chunks inbound2
        else [WSEv.readF q, WSEv.writeClose (("input chunk mismatch").toList)]
    | '<' :: rec => WSEv.writeF rec :: replayWSSpecRedacting ro chunks inbound
    | _ => []

/-! ## Properties and claim theorems -/

theorem splitNl_ne_nil (s : Str) : splitNl s ≠ [] := by
  match s with
  | [] => simp [splitNl]
  | c :: cs =>
    simp only [splitNl]
    split
    · simp
    · match h : splitNl cs with
      | [] => simp
      | l :: ls => simp

theorem splitNl_of_no_nl (s : Str) (h : '\n' ∉ s) : splitNl s = [s] := by
  induction s with
  | nil => rfl
  | cons c cs ih =>
    simp only [List.mem_cons, not_or] at h
    simp only [splitNl]
    rw [if_neg (by exact fun hc => h.1 hc.symm)]
    rw [ih h.2]

theorem splitNl_append_nl (a b : Str) (h : '\n' ∉ a) :
    splitNl (a ++ '\n' :: b) = a :: splitNl b := by
  induction a with
  | nil => simp [splitNl]
  | cons c cs ih =>
    simp only [List.mem_cons, not_or] at h
    simp only [List.cons_append, splitNl]
    rw [if_neg (by exact fun hc => h.1 hc.symm)]
    show (match splitNl (cs ++ '\n' :: b) with
      | [] => [[c]]
      | l :: ls => (c :: l) :: ls) = (c :: cs) :: splitNl b
    rw [ih h.2]

theorem intercalateNl_splitNl (s : Str) : intercalateNl (splitNl s) = s := by
  induction s with
  | nil => rfl
  | cons c cs ih =>
    simp only [splitNl]
    split
    · rename_i hc
      subst hc
      match h : splitNl cs with
      | [] => exact absurd h (splitNl_ne_nil cs)
      | l :: ls =>
        rw [h] at ih
        simp [intercalateNl, ih]
    · match h : splitNl cs with
      | [] => exact absurd h (splitNl_ne_nil cs)
      | [l] =>
        rw [h] at ih
        simp only [intercalateNl] at ih
        simp [intercalateNl, ih]
      | l :: l2 :: ls =>
        rw [h] at ih
        simp only [intercalateNl] at ih ⊢
        rw [← ih]
        simp

theorem natToDigits_ne_nil (n : Nat) : natToDigits n ≠ [] := by
  rw [natToDigits]
  split <;> simp

theorem decChar_lt10_isDec : ∀ d < 10, isDecD (decChar d) = true := by decide

theorem natToDigits_digits (n : Nat) : ∀ c ∈ natToDigits n, isDecD c = true := by
  induction n using natToDigits.induct with
  | case1 n h =>
    rw [natToDigits, dif_pos h]
    intro c hc
    simp only [List.mem_singleton] at hc
    subst hc
    exact decChar_lt10_isDec n h
  | case2 n h ih =>
    rw [natToDigits, dif_neg h]
    intro c hc
    rcases List.mem_append.mp hc with h1 | h2
    · exact ih c h1
    · simp only [List.mem_singleton] at h2
      subst h2
      exact decChar_lt10_isDec _ (Nat.mod_lt _ (by omega))

theorem decChar_lt10_ne_zero : ∀ d < 10, d ≠ 0 → decChar d ≠ '0' := by decide

theorem natToDigits_head_ne_zero (n : Nat) (hn : n ≠ 0) :
    ∀ c cs, natToDigits n = c :: cs → c ≠ '0' := by
  induction n using natToDigits.induct with
  | case1 n h =>
    rw [natToDigits, dif_pos h]
    intro c cs hc
    simp only [List.cons.injEq] at hc
    rw [← hc.1]
    exact decChar_lt10_ne_zero n h hn
  | case2 n h ih =>
    rw [natToDigits, dif_neg h]
    intro c cs hc
    match hd : natToDigits (n / 10) with
    | [] => exact absurd hd (natToDigits_ne_nil _)
    | c0 :: cs0 =>
      rw [hd] at hc
      simp only [List.cons_append, List.cons.injEq] at hc
      rw [← hc.1]
      exact ih (by omega) c0 cs0 hd

theorem hexVal_decChar_lt10 : ∀ d < 10, hexVal (decChar d) = d := by decide

theorem valIn_natToDigits (n : Nat) : valIn 10 (natToDigits n) = n := by
  induction n using natToDigits.induct with
  | case1 n h =>
    rw [natToDigits, dif_pos h]
    simp [valIn, hexVal_decChar_lt10 n h]
  | case2 n h ih =>
    rw [natToDigits, dif_neg h]
    simp only [valIn, List.foldl_append, List.foldl_cons, List.foldl_nil]
    rw [show List.foldl (fun a c => 10 * a + hexVal c) 0 (natToDigits (n / 10)) =
      valIn 10 (natToDigits (n / 10)) from rfl, ih,
      hexVal_decChar_lt10 _ (Nat.mod_lt _ (by omega))]
    omega

theorem isDecD_toNat {c : Char} (h : isDecD c = true) : 48 ≤ c.toNat ∧ c.toNat ≤ 57 := by
  simp only [isDecD, Bool.and_eq_true, decide_eq_true_eq] at h
  exact h

theorem isDecD_not_space {c : Char} (h : isDecD c = true) : goIsSpace c = false := by
  have hb := isDecD_toNat h
  simp only [goIsSpace, Bool.or_eq_false_iff, Bool.and_eq_false_iff,
    decide_eq_false_iff_not]
  omega

theorem isDecD_ne_of_toNat {c : Char} (h : isDecD c = true) (d : Char)
    (hd : d.toNat < 48 ∨ 57 < d.toNat) : c ≠ d := by
  have hb := isDecD_toNat h
  intro he
  subst he
  omega

theorem usOK_no_underscore (l : Str) (h : ∀ c ∈ l, c ≠ '_') : ∀ b, usOK b l = true := by
  induction l with
  | nil => intro b; rfl
  | cons c cs ih =>
    intro b
    simp only [usOK]
    rw [if_neg (h c (by simp))]
    exact ih (fun x hx => h x (by simp [hx])) true

theorem stripUnd_no_underscore (l : Str) (h : ∀ c ∈ l, c ≠ '_') : stripUnd l = l := by
  rw [stripUnd, List.filter_eq_self]
  intro a ha
  simpa using h a ha

theorem takeWhile_of_all {p : Char → Bool} (l : Str) (h : ∀ c ∈ l, p c = true) :
    l.takeWhile p = l := by
  induction l with
  | nil => rfl
  | cons c cs ih =>
    rw [List.takeWhile_cons, if_pos (h c (by simp))]
    rw [ih (fun x hx => h x (by simp [hx]))]

/-- An all-decimal digit run scans in base ten to its decimal value. -/
theorem scanBody_digits (neg : Bool) (c : Char) (cs : Str)
    (hdig : ∀ x ∈ c :: cs, isDecD x = true) (hc0 : c ≠ '0') :
    scanBody neg (c :: cs) =
      (if neg then (if valIn 10 (c :: cs) ≤ 2 ^ 63 then some (-(valIn 10 (c :: cs) : Int)) else none)
       else (if valIn 10 (c :: cs) ≤ 2 ^ 63 - 1 then some ((valIn 10 (c :: cs) : Int)) else none)) := by
  have hne : ∀ x ∈ c :: cs, x ≠ '_' := fun x hx =>
    isDecD_ne_of_toNat (hdig x hx) '_' (by right; decide)
  simp only [scanBody]
  rw [if_neg hc0]
  rw [takeWhile_of_all _ (fun x hx => by rw [hdig x hx]; simp)]
  rw [if_neg (by simp)]
  rw [finishScan]
  rw [stripUnd_no_underscore _ hne]
  rw [if_neg (by simp)]
  rw [usOK_no_underscore _ hne false]
  simp only [if_true]

/-- Digits printed by the %d verb always scan back to the same value: the
positive-number core of the round-trip. -/
theorem goScanInt_digits (n : Nat) (hn : n ≠ 0) (hb : n ≤ 2 ^ 63 - 1) :
    goScanInt (natToDigits n) = some (n : Int) := by
  match hd : natToDigits n with
  | [] => exact absurd hd (natToDigits_ne_nil _)
  | c :: cs =>
    have hdig : ∀ x ∈ c :: cs, isDecD x = true := by
      rw [← hd]; exact natToDigits_digits n
    have hc : isDecD c = true := hdig c (by simp)
    rw [goScanInt]
    rw [List.dropWhile_cons, if_neg (by rw [isDecD_not_space hc]; simp)]
    simp only [scanStart]
    rw [if_neg (by
      simp only [Bool.or_eq_true, decide_eq_true_eq, not_or]
      exact ⟨isDecD_ne_of_toNat hc '-' (by left; decide),
             isDecD_ne_of_toNat hc '+' (by left; decide)⟩)]
    rw [scanBody_digits _ c cs hdig (natToDigits_head_ne_zero n hn c cs hd)]
    have hv : valIn 10 (c :: cs) = n := by rw [← hd]; exact valIn_natToDigits n
    have hcm : (c = '-') = False := by
      simp only [eq_iff_iff, iff_false]
      exact isDecD_ne_of_toNat hc '-' (by left; decide)
    rw [hv]
    rw [if_pos hb]
    have hm : decide (c = '-') = false :=
      decide_eq_false (isDecD_ne_of_toNat hc '-' (by left; decide))
    rw [hm]
    simp

/-- Round-trip of the port field: a %d-printed int64 scans back to itself. -/
theorem goScanInt_intToStr (p : Int) (h1 : -(2 ^ 63) ≤ p) (h2 : p ≤ 2 ^ 63 - 1) :
    goScanInt (intToStr p) = some p := by
  rw [intToStr]
  by_cases hneg : p < 0
  · rw [if_pos hneg]
    have hn : p.natAbs ≠ 0 := by omega
    match hd : natToDigits p.natAbs with
    | [] => exact absurd hd (natToDigits_ne_nil _)
    | c :: cs =>
      have hdig : ∀ x ∈ c :: cs, isDecD x = true := by
        rw [← hd]; exact natToDigits_digits _
      rw [goScanInt]
      rw [List.dropWhile_cons, if_neg (by decide)]
      simp only [scanStart]
      rw [if_pos (by decide)]
      rw [scanBody_digits _ c cs hdig (natToDigits_head_ne_zero _ hn c cs hd)]
      have hv : valIn 10 (c :: cs) = p.natAbs := by rw [← hd]; exact valIn_natToDigits _
      rw [hv]
      rw [if_pos (by simp)]
      rw [if_pos (show p.natAbs ≤ 2 ^ 63 by omega)]
      congr 1
      omega
  · rw [if_neg hneg]
    by_cases h0 : p = 0
    · subst h0
      rw [show (Int.toNat 0) = 0 from rfl]
      rw [show natToDigits 0 = ['0'] from by rw [natToDigits]; rfl]
      rw [goScanInt]
      rw [List.dropWhile_cons, if_neg (by decide)]
      simp only [scanStart]
      rw [if_neg (by decide)]
      simp [scanBody, scanAfterZero]
    · have hn : p.toNat ≠ 0 := by omega
      rw [goScanInt_digits p.toNat hn (by omega)]
      congr 1
      omega

theorem splitKV_hdrLine (k v : Str) (hk : ∀ c ∈ k, c ≠ ':') :
    splitKV (hdrLine k v) = some (k, v) := by
  induction k with
  | nil => simp [hdrLine, splitKV, spHead]
  | cons c cs ih =>
    have hc : c ≠ ':' := hk c (by simp)
    have ihr := ih (fun x hx => hk x (by simp [hx]))
    rw [hdrLine] at ihr ⊢
    simp only [List.cons_append, splitKV]
    rw [if_neg (by simp [hc])]
    show Option.map (fun p => (c :: p.1, p.2)) (splitKV (cs ++ ':' :: ' ' :: v)) =
      some (c :: cs, v)
    rw [ihr]
    rfl

theorem hdrAdd_fresh (h : HdrT) (k : Str) (v : Str) (hk : ∀ e ∈ h, e.1 ≠ k) :
    hdrAdd h k v = h ++ [(k, [v])] := by
  induction h with
  | nil => rfl
  | cons e rest ih =>
    match e with
    | (k0, vs) =>
      rw [hdrAdd]
      rw [if_neg (hk (k0, vs) (by simp))]
      rw [ih (fun x hx => hk x (by simp [hx]))]
      simp

theorem hdrAdd_existing (h : HdrT) (k : Str) (vs : List Str) (v : Str)
    (hk : ∀ e ∈ h, e.1 ≠ k) :
    hdrAdd (h ++ [(k, vs)]) k v = h ++ [(k, vs ++ [v])] := by
  induction h with
  | nil => simp [hdrAdd]
  | cons e rest ih =>
    match e with
    | (k0, vs0) =>
      simp only [List.cons_append, hdrAdd]
      rw [if_neg (hk (k0, vs0) (by simp))]
      show (k0, vs0) :: hdrAdd (rest ++ [(k, vs)]) k v = (k0, vs0) :: (rest ++ [(k, vs ++ [v])])
      rw [ih (fun x hx => hk x (by simp [hx]))]

theorem hdrLine_ne_nil (k v : Str) : hdrLine k v ≠ [] := by
  cases k <;> simp [hdrLine]

theorem mem_hdrLine {c : Char} (k v : Str) (hc : c ∈ hdrLine k v) :
    c ∈ k ∨ c = ':' ∨ c = ' ' ∨ c ∈ v := by
  simp only [hdrLine, List.mem_append, List.mem_cons] at hc
  tauto

theorem no_nl_serHdrLines (h : HdrT)
    (hv : ∀ e ∈ h, '\n' ∉ e.1 ∧ ∀ v ∈ e.2, '\n' ∉ v) :
    ∀ l ∈ serHdrLines h, '\n' ∉ l := by
  induction h with
  | nil => simp [serHdrLines]
  | cons e h' ih =>
    match e with
    | (k, vs) =>
      intro l hl
      simp only [serHdrLines, List.mem_append, List.mem_map] at hl
      rcases hl with ⟨v, hv2, rfl⟩ | hl
      · intro hnl
        rcases mem_hdrLine k v hnl with h1 | h2 | h3 | h4
        · exact (hv (k, vs) (by simp)).1 h1
        · simp at h2
        · simp at h3
        · exact (hv (k, vs) (by simp)).2 v hv2 h4
      · exact ih (fun x hx => hv x (by simp [hx])) l hl

theorem splitNl_linesNl (lines : List Str) (rest : Str)
    (h : ∀ l ∈ lines, '\n' ∉ l) :
    splitNl (linesNl lines ++ rest) = lines ++ splitNl rest := by
  induction lines with
  | nil => rfl
  | cons l ls ih =>
    simp only [linesNl, List.cons_append, List.append_assoc]
    rw [splitNl_append_nl _ _ (h l (by simp))]
    rw [ih (fun x hx => h x (by simp [hx]))]

theorem isPrefixOf_append_self (p s : Str) : p.isPrefixOf (p ++ s) = true := by
  induction p with
  | nil => simp [List.isPrefixOf]
  | cons c cs ih => simp [List.isPrefixOf, ih]

theorem dropPre_append (p s : Str) : dropPre p (p ++ s) = s := by
  rw [dropPre, if_pos (isPrefixOf_append_self p s), List.drop_left]

theorem scanHdr_run (k : Str) (hk : ∀ c ∈ k, c ≠ ':') (hck : canonicalKey k = k)
    (vs : List Str) (acc : HdrT) (vsDone : List Str) (restL : List Str)
    (hfresh : ∀ a ∈ acc, a.1 ≠ k) :
    scanHdr (acc ++ [(k, vsDone)]) (vs.map (hdrLine k) ++ restL) =
      scanHdr (acc ++ [(k, vsDone ++ vs)]) restL := by
  induction vs generalizing vsDone with
  | nil => simp
  | cons v vs' ih =>
    simp only [List.map_cons, List.cons_append]
    rw [scanHdr.eq_def]
    simp only [hdrLine_ne_nil k v, if_false]
    rw [show addLine (acc ++ [(k, vsDone)]) (hdrLine k v) = acc ++ [(k, vsDone ++ [v])] from by
      rw [addLine, splitKV_hdrLine k v hk]
      simp only
      rw [hck]
      exact hdrAdd_existing acc k vsDone v hfresh]
    rw [ih (vsDone ++ [v])]
    simp

theorem scanHdr_serLines (h : HdrT) (acc : HdrT) (bodyLines : List Str)
    (hv : ∀ e ∈ h, (∀ c ∈ e.1, c ≠ ':') ∧ canonicalKey e.1 = e.1 ∧ e.2 ≠ [])
    (hpair : h.Pairwise (fun a b => a.1 ≠ b.1))
    (hfresh : ∀ e ∈ h, ∀ a ∈ acc, a.1 ≠ e.1) :
    scanHdr acc (serHdrLines h ++ [] :: [] :: bodyLines) = .found (acc ++ h) bodyLines := by
  induction h generalizing acc with
  | nil => simp [serHdrLines, scanHdr]
  | cons e h' ih =>
    match e with
    | (k, vs) =>
      have hvk := hv (k, vs) (by simp)
      match vs, hvk.2.2 with
      | v :: vs', _ =>
        simp only [serHdrLines, List.map_cons, List.cons_append, List.append_assoc]
        rw [scanHdr.eq_def]
        simp only [hdrLine_ne_nil k v, if_false]
        have hfk : ∀ a ∈ acc, a.1 ≠ k := fun a ha => hfresh (k, v :: vs') (by simp) a ha
        rw [show addLine acc (hdrLine k v) = acc ++ [(k, [v])] from by
          rw [addLine, splitKV_hdrLine k v hvk.1]
          simp only
          rw [hvk.2.1]
          exact hdrAdd_fresh acc k v hfk]
        rw [scanHdr_run k hvk.1 hvk.2.1 vs' acc [v] _ hfk]
        rw [ih (acc ++ [(k, [v] ++ vs')])
          (fun x hx => hv x (by simp [hx]))
          (List.Pairwise.of_cons hpair)
          (by
            intro e2 he2 a ha
            rcases List.mem_append.mp ha with ha1 | ha2
            · exact hfresh e2 (by simp [he2]) a ha1
            · simp only [List.mem_singleton] at ha2
              subst ha2
              exact (List.pairwise_cons.mp hpair).1 e2 he2
          )]
        simp

theorem no_nl_natToDigits (n : Nat) : '\n' ∉ natToDigits n := by
  intro hmem
  have hd := natToDigits_digits n _ hmem
  simp [isDecD] at hd

theorem no_nl_intToStr (p : Int) : '\n' ∉ intToStr p := by
  rw [intToStr]
  split
  · intro hmem
    rcases List.mem_cons.mp hmem with h1 | h2
    · simp at h1
    · exact no_nl_natToDigits _ h2
  · exact no_nl_natToDigits _

theorem intToStr_ne_nil (p : Int) : intToStr p ≠ [] := by
  rw [intToStr]
  split
  · simp
  · exact natToDigits_ne_nil _

theorem splitNl_serializeT (r : RecordedRequestT) (h : ValidT r) :
    splitNl (serializeT r) =
      serFrontLines r ++ (serHdrLines r.Header ++ [] :: [] :: splitNl r.Body) := by
  obtain ⟨h1, h2, h3, h4, _h5, _h6, _h7, h8⟩ := h
  have hfront : ∀ l ∈ serFrontLines r ++ serHdrLines r.Header, '\n' ∉ l := by
    intro l hl
    rcases List.mem_append.mp hl with hl | hl
    · simp only [serFrontLines, List.mem_cons, List.mem_singleton] at hl
      rcases hl with rfl | rfl | rfl | rfl | rfl | rfl | hfin
      · exact h1
      · intro hmem
        rcases List.mem_append.mp hmem with hx | hx
        · revert hx; decide
        · exact h2 hx
      · intro hmem
        rcases List.mem_append.mp hmem with hx | hx
        · revert hx; decide
        · exact no_nl_intToStr _ hx
      · intro hmem
        rcases List.mem_append.mp hmem with hx | hx
        · revert hx; decide
        · exact h3 hx
      · intro hmem
        rw [starsLine] at hmem
        exact absurd (List.eq_of_mem_replicate hmem) (by decide)
      · exact h4
      · simp at hfin
    · exact no_nl_serHdrLines r.Header
        (fun e he => ⟨(h8 e he).1, (h8 e he).2.2.2.2⟩) l hl
  rw [serializeT, splitNl_linesNl _ _ hfront]
  rw [show splitNl ('\n' :: '\n' :: r.Body) = [] :: [] :: splitNl r.Body from by
    simp [splitNl]]
  simp [List.append_assoc]

/-- Claim C4 (round-trip of the line-oriented text format): for every valid
representable RecordedRequest, Deserialize of Serialize succeeds and
reproduces the request line, headers, body bytes, previous-hash, server
address, port and protocol. -/
theorem deserializeT_serializeT (r : RecordedRequestT) (h : ValidT r) :
    deserializeT (serializeT r) = .ok r := by
  obtain ⟨h1, h2, h3, h4, h5, h6, h7, h8⟩ := h
  rw [deserializeT]
  rw [splitNl_serializeT r ⟨h1, h2, h3, h4, h5, h6, h7, h8⟩]
  rw [serFrontLines]
  simp only [List.cons_append, List.nil_append]
  rw [if_neg (by simp)]
  simp only [List.getD_cons_zero, List.getD_cons_succ]
  rw [dropPre_append saPre, dropPre_append portPre, dropPre_append protoPre]
  rw [if_neg (intToStr_ne_nil r.Port)]
  rw [goScanInt_intToStr r.Port h5 h6]
  simp only [List.drop_succ_cons, List.drop_zero]
  rw [scanHdr_serLines r.Header [] (splitNl r.Body)
    (fun e he => ⟨(h8 e he).2.1, (h8 e he).2.2.1, (h8 e he).2.2.2.1⟩)
    h7 (by simp)]
  simp only [List.nil_append]
  rw [intercalateNl_splitNl]

theorem deserializeT_serializeT_witness :
    ValidT sampleReqT ∧ deserializeT (serializeT sampleReqT) = .ok sampleReqT :=
  ⟨by decide, deserializeT_serializeT sampleReqT (by decide)⟩

/-- Claim C5, amended: text-format deserialization errors out when the
non-empty port text does not begin with a scannable integer token; a port
text that begins with digits is accepted with its trailing garbage
silently ignored (see the counterexample below). -/
theorem deserializeT_port_amended (data : Str)
    (h6 : ¬ (splitNl data).length < 6)
    (hne : dropPre portPre ((splitNl data).getD 2 []) ≠ [])
    (hbad : goScanInt (dropPre portPre ((splitNl data).getD 2 [])) = none) :
    deserializeT data = .err := by
  simp only [deserializeT]
  rw [if_neg h6, if_neg hne, hbad]

theorem deserializeT_port_amended_witness :
    ¬ (splitNl (("a\nb\nPort: zz\nd\ne\nf").toList)).length < 6 ∧
    deserializeT (("a\nb\nPort: zz\nd\ne\nf").toList) = .err :=
  ⟨by decide, deserializeT_port_amended _ (by decide) (by decide) (by decide)⟩

/-- Counterexample to claim C5 as stated: the port text "12abc" is
non-empty and is not a decimal number, yet Deserialize succeeds and
silently derives port 12 from its leading digits. -/
theorem deserializeT_port_counterexample :
    dropPre portPre ((splitNl (("p\nServer Address: h\nPort: 12abc\nProtocol: x\n*\nGET / HTTP/1.1\n\n\n").toList)).getD 2 []) = ("12abc").toList ∧
    deserializeT (("p\nServer Address: h\nPort: 12abc\nProtocol: x\n*\nGET / HTTP/1.1\n\n\n").toList) =
      .ok ⟨("GET / HTTP/1.1").toList, [], [], ("p").toList, ("h").toList, 12, ("x").toList⟩ := by
  constructor
  · decide
  · decide

/-- Claim C10: the forward double-blank-line scan of Deserialize reads one
line past the end of the split line list; on a seven-line input whose last
line is empty and that contains no blank-blank pair, the Go code indexes
lines[7] of a seven-element slice and panics (modelled as crash) instead of
returning a value or an error. -/
theorem deserializeT_crash_eval :
    deserializeT (("a\nb\n7\nd\ne\nf\n").toList) = .crash := by decide

theorem hexVal_hexDigitChar : ∀ m < 16, hexVal (hexDigitChar m) = m := by decide

set_option maxHeartbeats 2000000 in
theorem unesc_escChar (c : Char) (x : Str) :
    unescConsume (escChar c ++ x) = some (c, x) := by
  rw [escChar]
  split_ifs with h1 h2 h3 h4 h5 h6 h7 h8 h9 h10 h11
  · subst h1; simp [unescConsume, shortCode]
  · subst h2; simp [unescConsume, shortCode]
  · subst h3; simp [unescConsume, shortCode]
  · subst h4; simp [unescConsume, shortCode]
  · subst h5; simp [unescConsume, shortCode]
  · simp only [List.cons_append, List.nil_append, unescConsume, if_true]
    have hu : uDecode '0' '0' (hexDigitChar (c.toNat / 16)) (hexDigitChar (c.toNat % 16)) =
        c.toNat := by
      rw [uDecode]
      rw [show hexVal '0' = 0 from by decide]
      rw [hexVal_hexDigitChar (c.toNat / 16) (by omega),
          hexVal_hexDigitChar (c.toNat % 16) (by omega)]
      omega
    rw [hu, Char.ofNat_toNat]
    rw [if_neg (by decide)]
  · subst h7
    simp only [List.cons_append, List.nil_append, unescConsume, if_true]
    rw [show Char.ofNat (uDecode '0' '0' '3' 'c') = '<' from by decide]
    rw [if_neg (by decide)]
  · subst h8
    simp only [List.cons_append, List.nil_append, unescConsume, if_true]
    rw [show Char.ofNat (uDecode '0' '0' '3' 'e') = '>' from by decide]
    rw [if_neg (by decide)]
  · subst h9
    simp only [List.cons_append, List.nil_append, unescConsume, if_true]
    rw [show Char.ofNat (uDecode '0' '0' '2' '6') = '&' from by decide]
    rw [if_neg (by decide)]
  · simp only [List.cons_append, List.nil_append, unescConsume, if_true]
    rw [show uDecode '2' '0' '2' '8' = 0x2028 from by decide, ← h10, Char.ofNat_toNat]
    rw [if_neg (by decide)]
  · simp only [List.cons_append, List.nil_append, unescConsume, if_true]
    rw [show uDecode '2' '0' '2' '9' = 0x2029 from by decide, ← h11, Char.ofNat_toNat]
    rw [if_neg (by decide)]
  · simp only [List.cons_append, List.nil_append, unescConsume]
    rw [if_neg h1, if_neg h2]

theorem escStr_cancel (s1 : Str) : ∀ (s2 r1 r2 : Str),
    escStr s1 ++ '"' :: r1 = escStr s2 ++ '"' :: r2 → s1 = s2 ∧ r1 = r2 := by
  induction s1 with
  | nil =>
    intro s2 r1 r2 h
    cases s2 with
    | nil =>
      simp only [escStr, List.nil_append, List.cons.injEq, true_and] at h
      exact ⟨rfl, h⟩
    | cons c2 s2' =>
      exfalso
      rw [escStr] at h
      simp only [escStr, List.nil_append, List.append_assoc] at h
      have e2 := unesc_escChar c2 (escStr s2' ++ '"' :: r2)
      rw [← h] at e2
      simp [unescConsume] at e2
  | cons c1 s1' ih =>
    intro s2 r1 r2 h
    cases s2 with
    | nil =>
      exfalso
      rw [escStr] at h
      simp only [escStr, List.nil_append, List.append_assoc] at h
      have e1 := unesc_escChar c1 (escStr s1' ++ '"' :: r1)
      rw [h] at e1
      simp [unescConsume] at e1
    | cons c2 s2' =>
      rw [escStr, escStr, List.append_assoc, List.append_assoc] at h
      have e1 := unesc_escChar c1 (escStr s1' ++ '"' :: r1)
      rw [h] at e1
      rw [unesc_escChar c2 (escStr s2' ++ '"' :: r2)] at e1
      simp only [Option.some.injEq, Prod.mk.injEq] at e1
      obtain ⟨hc, ht⟩ := e1
      obtain ⟨hs, hr⟩ := ih s2' r1 r2 ht.symm
      exact ⟨by rw [hc, hs], hr⟩

theorem jsonStr_cancel (v1 v2 y1 y2 : Str)
    (h : jsonStr v1 ++ y1 = jsonStr v2 ++ y2) : v1 = v2 ∧ y1 = y2 := by
  rw [jsonStr, jsonStr] at h
  simp only [List.cons_append, List.append_assoc, List.singleton_append,
    List.cons.injEq, true_and] at h
  exact escStr_cancel v1 v2 y1 y2 h

theorem jsonVals_cons_append (v : Str) (t : List Str) (y : Str) :
    jsonVals (v :: t) ++ y =
      jsonStr v ++ (match t with | [] => y | _ :: _ => ',' :: (jsonVals t ++ y)) := by
  match t with
  | [] => rfl
  | w :: t' => simp [jsonVals, List.append_assoc]

theorem jsonVals_cancel (vs1 : List Str) : ∀ vs2 r1 r2,
    jsonVals vs1 ++ ']' :: r1 = jsonVals vs2 ++ ']' :: r2 → vs1 = vs2 ∧ r1 = r2 := by
  induction vs1 with
  | nil =>
    intro vs2 r1 r2 h
    match vs2 with
    | [] =>
      simp only [jsonVals, List.nil_append, List.cons.injEq, true_and] at h
      exact ⟨rfl, h⟩
    | v2 :: t2 =>
      exfalso
      rw [jsonVals_cons_append] at h
      simp only [jsonVals, List.nil_append, jsonStr, List.cons_append,
        List.cons.injEq] at h
      exact absurd h.1 (by decide)
  | cons v1 t1 ih =>
    intro vs2 r1 r2 h
    match vs2 with
    | [] =>
      exfalso
      rw [jsonVals_cons_append] at h
      simp only [jsonVals, List.nil_append, jsonStr, List.cons_append,
        List.cons.injEq] at h
      exact absurd h.1 (by decide)
    | v2 :: t2 =>
      rw [jsonVals_cons_append, jsonVals_cons_append] at h
      obtain ⟨hv, ht⟩ := jsonStr_cancel v1 v2 _ _ h
      subst hv
      match t1, t2, ht with
      | [], [], ht =>
        simp only [List.cons.injEq, true_and] at ht
        exact ⟨rfl, ht⟩
      | [], w2 :: t2', ht =>
        exfalso
        injection ht with hh _
        exact absurd hh (by decide)
      | w1 :: t1', [], ht =>
        exfalso
        injection ht with hh _
        exact absurd hh (by decide)
      | w1 :: t1', w2 :: t2', ht =>
        injection ht with _ ht2
        obtain ⟨hte, hr⟩ := ih (w2 :: t2') r1 r2 ht2
        exact ⟨by rw [hte], hr⟩

theorem jsonField_append (k : Str) (vs : List Str) (y : Str) :
    jsonField k vs ++ y = jsonStr k ++ ':' :: '[' :: (jsonVals vs ++ ']' :: y) := by
  simp [jsonField, List.append_assoc]

theorem jsonFields_cons_append (k : Str) (vs : List Str) (rest : HdrT) (y : Str) :
    jsonFields ((k, vs) :: rest) ++ y =
      jsonField k vs ++
        (match rest with | [] => y | _ :: _ => ',' :: (jsonFields rest ++ y)) := by
  match rest with
  | [] => rfl
  | e :: rest' => simp [jsonFields, List.append_assoc]

theorem jsonFields_cancel (h1 : HdrT) : ∀ h2 b1 b2,
    jsonFields h1 ++ rbrace :: b1 = jsonFields h2 ++ rbrace :: b2 →
      h1 = h2 ∧ b1 = b2 := by
  induction h1 with
  | nil =>
    intro h2 b1 b2 h
    match h2 with
    | [] =>
      simp only [jsonFields, List.nil_append, List.cons.injEq, true_and] at h
      exact ⟨rfl, h⟩
    | (k2, vs2) :: t2 =>
      exfalso
      rw [jsonFields_cons_append, jsonField_append] at h
      simp only [jsonFields, List.nil_append, jsonStr, List.cons_append,
        List.cons.injEq] at h
      exact absurd h.1 (by decide)
  | cons e1 t1 ih =>
    intro h2 b1 b2 h
    match e1 with
    | (k1, vs1) =>
      match h2 with
      | [] =>
        exfalso
        rw [jsonFields_cons_append, jsonField_append] at h
        simp only [jsonFields, List.nil_append, jsonStr, List.cons_append,
          List.cons.injEq] at h
        exact absurd h.1 (by decide)
      | (k2, vs2) :: t2 =>
        rw [jsonFields_cons_append, jsonFields_cons_append,
          jsonField_append, jsonField_append] at h
        obtain ⟨hk, ht⟩ := jsonStr_cancel k1 k2 _ _ h
        subst hk
        injection ht with _ ht
        injection ht with _ ht
        obtain ⟨hvs, hy⟩ := jsonVals_cancel vs1 vs2 _ _ ht
        subst hvs
        match t1, t2, hy with
        | [], [], hy =>
          simp only [List.cons.injEq, true_and] at hy
          exact ⟨rfl, hy⟩
        | [], e2 :: t2', hy =>
          exfalso
          injection hy with hh _
          exact absurd hh (by decide)
        | e1' :: t1', [], hy =>
          exfalso
          injection hy with hh _
          exact absurd hh (by decide)
        | e1' :: t1', e2 :: t2', hy =>
          injection hy with _ hy2
          obtain ⟨hte, hb⟩ := ih (e2 :: t2') b1 b2 hy2
          exact ⟨by rw [hte], hb⟩

/-- Prefix-unambiguity of the hashed byte stream of the text-format
ComputeSum: the marshalled header concatenated with the body determines
both the header map and the body, so no collision can arise from the
concatenation. -/
theorem hashInputT_inj (r1 r2 : RecordedRequestT)
    (h : hashInputT r1 = hashInputT r2) :
    r1.Header = r2.Header ∧ r1.Body = r2.Body := by
  rw [hashInputT, hashInputT, jsonHeader, jsonHeader] at h
  simp only [List.cons_append, List.append_assoc, List.singleton_append,
    List.cons.injEq, true_and] at h
  exact jsonFields_cancel r1.Header r2.Header r1.Body r2.Body h

/-- Claim C1, amended: the text-format content hash is deterministic, is a
function of exactly the (redacted) header map and body bytes, reacts to
every change of a header value or body byte (the hashed byte stream is
injective in header and body, with no collision from the ambiguous
concatenation of the marshalled header with the body), and does NOT react
to a change of the previous-hash field alone, which the text-format
ComputeSum never hashes.  Headers are taken in the canonical sorted order
in which encoding/json marshals the map. -/
theorem computeSumT_amended (sha : Str → Str) (r1 r2 : RecordedRequestT)
    (_hs1 : HdrSorted r1.Header) (_hs2 : HdrSorted r2.Header) :
    ((r1.Header = r2.Header ∧ r1.Body = r2.Body) →
        computeSumT sha r1 = computeSumT sha r2) ∧
    (hashInputT r1 = hashInputT r2 → r1.Header = r2.Header ∧ r1.Body = r2.Body) := by
  constructor
  · rintro ⟨hh, hb⟩
    rw [computeSumT, computeSumT, hashInputT, hashInputT, hh, hb]
  · exact hashInputT_inj r1 r2

theorem computeSumT_amended_witness :
    HdrSorted sampleReqT.Header ∧
    ((sampleReqT.Header = sampleReqT.Header ∧ sampleReqT.Body = sampleReqT.Body) →
        computeSumT (fun s => s) sampleReqT = computeSumT (fun s => s) sampleReqT) ∧
    (hashInputT sampleReqT = hashInputT sampleReqT →
        sampleReqT.Header = sampleReqT.Header ∧ sampleReqT.Body = sampleReqT.Body) :=
  ⟨by decide,
   computeSumT_amended (fun s => s) sampleReqT sampleReqT (by decide) (by decide)⟩

/-- Counterexample to claim C1 as stated: changing only the previous-hash
field leaves the byte stream hashed by the text-format ComputeSum
unchanged, so the content hash cannot change either - the field is simply
not part of the hashed data. -/
theorem computeSumT_prev_counterexample :
    hashInputT reqPrevA = hashInputT reqPrevB ∧
    reqPrevA.PreviousRequest ≠ reqPrevB.PreviousRequest := by
  constructor
  · rfl
  · decide

theorem replAll_no_occurrence (pats : List Str) (s : Str)
    (h : ∀ p ∈ pats, p = [] ∨ hasOcc p s = false) :
    replAll pats s = s := by
  induction s with
  | nil => rfl
  | cons c rest ih =>
    rw [replAll] at ih ⊢
    simp only [replSkip]
    match hf : firstHit pats (c :: rest) with
    | some p =>
      exfalso
      have hmem := List.mem_of_find?_eq_some hf
      have hp := List.find?_some hf
      simp only [Bool.and_eq_true, ne_eq, decide_eq_true_eq] at hp
      rcases h p hmem with h0 | h0
      · exact hp.1 h0
      · rw [hasOcc] at h0
        simp only [Bool.or_eq_false_iff] at h0
        rw [h0.1] at hp
        exact Bool.false_ne_true hp.2
    | none =>
      rw [ih (by
        intro p hp
        rcases h p hp with h0 | h0
        · exact Or.inl h0
        · rw [hasOcc] at h0
          simp only [Bool.or_eq_false_iff] at h0
          exact Or.inr h0.2)]

/-- Claim C9, amended: with an empty (or all-empty-string) secret list
every redaction operation returns its input unchanged, including
preserving the nil byte slice; and redacting already-redacted text is a
no-op whenever no configured secret still occurs in the redacted output.
Idempotence fails in general: a secret that occurs inside the REDACTED
placeholder (or across its boundary) is matched again on the second pass,
see the counterexample. -/
theorem redact_amended :
    (∀ secrets : List Str, (∀ s ∈ secrets, s = []) →
       (∀ s, redactString (mkRedact secrets) s = s) ∧
       (∀ b, redactBytes (mkRedact secrets) b = b) ∧
       (∀ h, redactHeaders (mkRedact secrets) h = h)) ∧
    (∀ (pats : List Str) (s : Str),
       (∀ p ∈ pats, p = [] ∨ hasOcc p (replAll pats s) = false) →
       replAll pats (replAll pats s) = replAll pats s) := by
  constructor
  · intro secrets hall
    have hnone : mkRedact secrets = none := by
      simp only [mkRedact]
      rw [if_pos (by
        rw [List.filter_eq_nil_iff]
        intro a ha
        simp [hall a ha])]
    rw [hnone]
    exact ⟨fun s => rfl, fun b => rfl, fun h => rfl⟩
  · intro pats s h
    exact replAll_no_occurrence pats _ h

theorem redact_amended_witness :
    redactString (mkRedact [[], []]) (("q").toList) = ("q").toList ∧
    redactBytes (mkRedact [[], []]) none = none ∧
    replAll [("abc").toList] (replAll [("abc").toList] (("xabcy").toList)) =
      replAll [("abc").toList] (("xabcy").toList) :=
  ⟨(redact_amended.1 [[], []] (by decide)).1 _,
   (redact_amended.1 [[], []] (by decide)).2.1 none,
   redact_amended.2 [("abc").toList] (("xabcy").toList) (by decide)⟩

/-- Counterexample to claim C9 as stated: with the secret "ACT", redacting
"ACT" yields "REDACTED", and redacting again matches the secret inside the
placeholder, yielding "REDREDACTEDED" - redaction of already-redacted text
is not a no-op. -/
theorem redact_not_idempotent :
    redactString (mkRedact [("ACT").toList])
        (redactString (mkRedact [("ACT").toList]) (("ACT").toList)) ≠
      redactString (mkRedact [("ACT").toList]) (("ACT").toList) := by decide

/-- Claim C8: recording file name resolution.  A test-name header value
containing "../" is rejected with an error and no name is produced; an
absent or empty test name falls back to the computed content hash; any
other test name is used with every space replaced by an underscore. -/
theorem getRecordingFileName_spec {β : Type} (sum : RecordedRequestJ β → Str)
    (r : RecordedRequestJ β) :
    (hasOcc dotDotSlash (headersGet r.Headers testNameKey) = true →
       getRecordingFileName sum r = .error (headersGet r.Headers testNameKey)) ∧
    (hasOcc dotDotSlash (headersGet r.Headers testNameKey) = false →
       headersGet r.Headers testNameKey = [] →
       getRecordingFileName sum r = .ok (sum r)) ∧
    (hasOcc dotDotSlash (headersGet r.Headers testNameKey) = false →
       headersGet r.Headers testNameKey ≠ [] →
       getRecordingFileName sum r = .ok (replaceSpaces (headersGet r.Headers testNameKey))) := by
  refine ⟨fun hocc => ?_, fun hocc hemp => ?_, fun hocc hne => ?_⟩
  · rw [getRecordingFileName]
    rw [if_pos hocc]
  · rw [getRecordingFileName]
    rw [if_neg (by rw [hocc]; simp), if_neg (by simp [hemp])]
  · rw [getRecordingFileName]
    rw [if_neg (by rw [hocc]; simp), if_pos hne]

theorem getRecordingFileName_spec_witness :
    getRecordingFileName sumU (mkReqJ [(testNameKey, ("../x").toList)]) =
      .error (("../x").toList) ∧
    getRecordingFileName sumU (mkReqJ []) = .ok (sumU (mkReqJ [])) ∧
    getRecordingFileName sumU (mkReqJ [(testNameKey, ("a b").toList)]) =
      .ok (("a_b").toList) :=
  ⟨(getRecordingFileName_spec sumU (mkReqJ [(testNameKey, ("../x").toList)])).1 (by decide),
   (getRecordingFileName_spec sumU (mkReqJ [])).2.1 (by decide) (by decide),
   by
     have := (getRecordingFileName_spec sumU
       (mkReqJ [(testNameKey, ("a b").toList)])).2.2 (by decide) (by decide)
     rw [this]
     rfl⟩

/-- Claim C2: replay chain-state semantics.  Whenever the handler replays
a request successfully (outcome ok), the hash used for the lookup was
computed with the previous-hash reset to HeadSHA if the resolved file name
had not been seen before, and with the current chain head otherwise; the
file name is then recorded as seen and the chain head is set to the
computed hash exactly when the file name differs from it, being left
unchanged otherwise.  Every other outcome (health check, build or name
error, websocket replay, lookup miss, write panic) leaves the chain state
untouched. -/
theorem replayStep_chain {β : Type} (sum : RecordedRequestJ β → Str)
    (lookup : Str → Str → Bool) (inp : ReplayInput β) (st : ReplayState) :
    (∀ f s, (replayStep sum lookup inp st).2 = ROut.ok f s →
       (f ∉ st.seenFiles → s = sum (setPrev inp.core headSHAhex)) ∧
       (f ∈ st.seenFiles → s = sum (setPrev inp.core st.prevRequestSHA)) ∧
       (replayStep sum lookup inp st).1.prevRequestSHA =
         (if f ≠ s then s else st.prevRequestSHA) ∧
       (replayStep sum lookup inp st).1.seenFiles = f :: st.seenFiles) ∧
    ((∀ f s, (replayStep sum lookup inp st).2 ≠ ROut.ok f s) →
       (replayStep sum lookup inp st).1 = st) := by
  obtain ⟨core, health, buildErr, wsUpgrade, writeErr⟩ := inp
  cases health with
  | true =>
    exact ⟨fun f s hout => by simp [replayStep] at hout, fun _ => by simp [replayStep]⟩
  | false =>
  cases buildErr with
  | true =>
    exact ⟨fun f s hout => by simp [replayStep] at hout, fun _ => by simp [replayStep]⟩
  | false =>
  rcases hname : getRecordingFileName sum (setPrev core st.prevRequestSHA) with e | fileName
  · exact ⟨fun f s hout => by simp [replayStep, hname] at hout,
           fun _ => by simp [replayStep, hname]⟩
  · cases wsUpgrade with
    | true =>
      exact ⟨fun f s hout => by simp [replayStep, hname] at hout,
             fun _ => by simp [replayStep, hname]⟩
    | false =>
      by_cases hseen : fileName ∈ st.seenFiles
      · cases hlook : lookup fileName (sum (setPrev core st.prevRequestSHA)) with
        | false =>
          refine ⟨fun f s hout => ?_, fun _ => ?_⟩
          · simp [replayStep, hname, hseen, hlook] at hout
          · simp [replayStep, hname, hseen, hlook]
        | true =>
          cases writeErr with
          | true =>
            refine ⟨fun f s hout => ?_, fun _ => ?_⟩
            · simp [replayStep, hname, hseen, hlook] at hout
            · simp [replayStep, hname, hseen, hlook]
          | false =>
            refine ⟨fun f s hout => ?_, fun hne => ?_⟩
            · simp [replayStep, hname, hseen, hlook] at hout
              obtain ⟨rfl, rfl⟩ := hout
              refine ⟨fun hns => absurd hseen hns, fun _ => rfl, ?_, ?_⟩
              · simp [replayStep, hname, hseen, hlook]
              · simp [replayStep, hname, hseen, hlook]
            · exact (hne fileName (sum (setPrev core st.prevRequestSHA))
                (by simp [replayStep, hname, hseen, hlook])).elim
      · cases hlook : lookup fileName
            (sum (setPrev (setPrev core st.prevRequestSHA) headSHAhex)) with
        | false =>
          refine ⟨fun f s hout => ?_, fun _ => ?_⟩
          · simp [replayStep, hname, hseen, hlook] at hout
          · simp [replayStep, hname, hseen, hlook]
        | true =>
          cases writeErr with
          | true =>
            refine ⟨fun f s hout => ?_, fun _ => ?_⟩
            · simp [replayStep, hname, hseen, hlook] at hout
            · simp [replayStep, hname, hseen, hlook]
          | false =>
            refine ⟨fun f s hout => ?_, fun hne => ?_⟩
            · simp [replayStep, hname, hseen, hlook] at hout
              obtain ⟨rfl, rfl⟩ := hout
              refine ⟨fun _ => rfl, fun hin => absurd hin hseen, ?_, ?_⟩
              · simp [replayStep, hname, hseen, hlook]
              · simp [replayStep, hname, hseen, hlook]
            · exact (hne fileName
                (sum (setPrev (setPrev core st.prevRequestSHA) headSHAhex))
                (by simp [replayStep, hname, hseen, hlook])).elim

theorem replayStep_chain_witness :
    ("deadbeef").toList ∉ (⟨headSHAhex, []⟩ : ReplayState).seenFiles ∧
    ("deadbeef").toList =
      sumU (setPrev (mkReqJ []) headSHAhex) ∧
    (replayStep sumU (fun _ _ => true)
       ⟨mkReqJ [], false, false, false, false⟩ ⟨headSHAhex, []⟩).1.prevRequestSHA =
      headSHAhex :=
  ⟨by decide,
   ((replayStep_chain sumU (fun _ _ => true)
       ⟨mkReqJ [], false, false, false, false⟩ ⟨headSHAhex, []⟩).1
     (("deadbeef").toList) (("deadbeef").toList) (by rfl)).1 (by decide),
   by
     have h := ((replayStep_chain sumU (fun _ _ => true)
       ⟨mkReqJ [], false, false, false, false⟩ ⟨headSHAhex, []⟩).1
       (("deadbeef").toList) (("deadbeef").toList) (by rfl)).2.2.1
     rw [h]
     rfl⟩

/-- Claim C3: record-mode chain advancement is refuted by evaluation.
Recording a request successfully from the initial chain state leaves the
chain head at HeadSHA rather than at the request's content hash, and a
second structurally identical request recorded from the resulting state
receives exactly the same hash as the first, not a different one: the
recording handler never assigns the endpoint's prevRequestSHA. -/
theorem recordStep_duplicate_requests :
    recordStep (fun s => s) [] none ⟨sampleReqT, false, false, false, false, false⟩
        headSHAhex =
      (headSHAhex, RecOut.okRec (hashInputT (setPrevT sampleReqT headSHAhex))) ∧
    (recordStep (fun s => s) [] none ⟨sampleReqT, false, false, false, false, false⟩
        (recordStep (fun s => s) [] none ⟨sampleReqT, false, false, false, false, false⟩
          headSHAhex).1).2 =
      RecOut.okRec (hashInputT (setPrevT sampleReqT headSHAhex)) ∧
    hashInputT (setPrevT sampleReqT headSHAhex) ≠ headSHAhex :=
  ⟨rfl, rfl, by decide⟩

theorem takeWhile_append_all {p : Char → Bool} (a b : Str)
    (h : ∀ c ∈ a, p c = true) :
    (a ++ b).takeWhile p = a ++ b.takeWhile p := by
  induction a with
  | nil => simp
  | cons x a ih =>
    simp [List.takeWhile_cons, h x (by simp), ih (fun c hc => h c (by simp [hc]))]

theorem valIn_foldl_shift (b : Str) :
    ∀ i : Nat, b.foldl (fun a c => 10 * a + hexVal c) i =
      i * 10 ^ b.length + valIn 10 b := by
  induction b with
  | nil => intro i; simp [valIn]
  | cons c b ih =>
    intro i
    have h0 : valIn 10 (c :: b) = hexVal c * 10 ^ b.length + valIn 10 b := by
      have := ih (hexVal c)
      simp only [valIn, List.foldl_cons] at this ⊢
      simpa using this
    simp only [List.foldl_cons, List.length_cons]
    rw [ih (10 * i + hexVal c), h0, pow_succ]
    ring

theorem valIn_append (a b : Str) :
    valIn 10 (a ++ b) = valIn 10 a * 10 ^ b.length + valIn 10 b := by
  simp only [valIn, List.foldl_append]
  exact valIn_foldl_shift b _

/-- Claim C6: the websocket transcript does not round-trip; the claim is
refuted for every single-frame transcript.  The recording engine writes
direction byte, decimal capacity and raw payload with no separator byte
and no trailing newline, while the loader skips one separator byte after
the digits and requires num bytes after it; since the written length
(cap(buf)) is at least the payload length, the loader's bounds check
always fails (or, when the payload continues with digits, the parsed
length only grows), so loading the recorded bytes of any one frame
returns an error instead of the frame. -/
theorem loadWS_pumpRecord_err (dir : Char) (capv : Nat) (payload : Str)
    (hdir : dir = '>' ∨ dir = '<') (hcap : payload.length ≤ capv) :
    loadWS (pumpRecord dir capv payload) = .err := by
  have hd : (dir = '>' || dir = '<') = true := by rcases hdir with rfl | rfl <;> rfl
  have hTW : (natToDigits capv ++ payload).takeWhile isDecD
      = natToDigits capv ++ payload.takeWhile isDecD :=
    takeWhile_append_all _ _ (natToDigits_digits capv)
  have hv : capv ≤ valIn 10 (natToDigits capv ++ payload.takeWhile isDecD) := by
    rw [valIn_append, valIn_natToDigits]
    calc capv ≤ capv * 10 ^ (payload.takeWhile isDecD).length :=
          Nat.le_mul_of_pos_right _ (Nat.pos_pow_of_pos _ (by omega))
      _ ≤ _ := Nat.le_add_right _ _
  rw [pumpRecord, loadWS]
  simp only [List.length_cons]
  rw [loadWSAux.eq_def]
  simp only [hd, if_true]
  rw [hTW]
  rw [if_neg (by simp [natToDigits_ne_nil capv])]
  by_cases hov : valIn 10 (natToDigits capv ++ payload.takeWhile isDecD) ≥ 2 ^ 63
  · rw [if_pos hov]
  · rw [if_neg hov]
    rw [if_pos ?_]
    simp only [List.length_append]
    omega

theorem loadWS_pumpRecord_err_witness :
    ('>' = '>' ∨ '>' = '<') ∧ ("hello").toList.length ≤ 5 ∧
    loadWS (pumpRecord '>' 5 (("hello").toList)) = .err :=
  ⟨Or.inl rfl, by decide,
   loadWS_pumpRecord_err '>' 5 (("hello").toList) (Or.inl rfl) (by decide)⟩

/-- Claim C7, the redaction part refuted: with secret "hello", a recorded
inbound chunk "hello" and a live client that sends the raw bytes "hello",
the code accepts the frame and replays on (the inbound frame is compared
unredacted), whereas the specified behaviour redacts the frame to
REDACTED, detects a mismatch and aborts with a close frame. -/
theorem replayWS_redaction_counterexample :
    replayWS [('>' :: ("hello").toList)] [("hello").toList] =
      [WSEv.readF (("hello").toList)] ∧
    replayWSSpecRedacting (mkRedact [("hello").toList])
        [('>' :: ("hello").toList)] [("hello").toList] =
      [WSEv.readF (("hello").toList),
       WSEv.writeClose (("input chunk mismatch").toList)] := by
  constructor
  · rfl
  · decide

/-- Claim C7, amended: replay walks the transcript strictly in recorded
order.  After any run of '>'-entries each matched in order by the live
client's raw (not redacted) frames, a '<'-entry's payload is written only
then, and the remaining transcript continues; if instead the next
'>'-entry meets a differing frame, the trace ends with the read and a
close frame carrying the error reason, and nothing further is replayed. -/
theorem replayWS_order_amended (qs : List Str) (rec : Str) (rest : List Str)
    (inb : List Str) (q : Str) (hq : q ≠ rec) :
    replayWS (qs.map (fun p => '>' :: p) ++ ('<' :: rec) :: rest) (qs ++ inb) =
      qs.map WSEv.readF ++ WSEv.writeF rec :: replayWS rest inb ∧
    replayWS (qs.map (fun p => '>' :: p) ++ ('>' :: rec) :: rest) (qs ++ q :: inb) =
      qs.map WSEv.readF ++
        [WSEv.readF q, WSEv.writeClose (("input chunk mismatch").toList)] := by
  induction qs with
  | nil =>
    constructor
    · simp [replayWS]
    · simp [replayWS, hq]
  | cons p qs ih =>
    constructor
    · simp [replayWS, ih.1]
    · simp [replayWS, ih.2]

theorem replayWS_order_amended_witness :
    ("bye").toList ≠ ("world").toList ∧
    replayWS [('>' :: ("hello").toList), ('<' :: ("world").toList)]
        [("hello").toList] =
      [WSEv.readF (("hello").toList), WSEv.writeF (("world").toList)] :=
  ⟨by decide,
   (replayWS_order_amended [("hello").toList] (("world").toList) []
     [] (("bye").toList) (by decide)).1⟩
